import Mathlib

/-!
Verification of the job queue, scheduler and worker of the
content-creator-agent repository.

The Go sources are embedded shallowly:

* `SQLiteQueue` (scheduler package): the `jobs` table becomes a list of
  `Job` records inside `QueueState`; each SQL statement of `Enqueue`,
  `Dequeue`, `Ack`, `Fail` and `HasPendingJob` becomes a pure function on
  `QueueState`.  A SQL transaction is an atomic step, so concurrent
  `Dequeue` callers are modelled as a serialized sequence of atomic
  `dequeue` steps (`dequeueSeq`).
* `Worker.Process` (scheduler/worker.go) becomes `processJob`; the
  externally-owned agent operations are opaque, so the factory result and
  the dispatched operation's result are parameters.
* `Scheduler.EnsureScheduled` and `Scheduler.CheckScheduledPosts`
  (scheduler package) become `ensureScheduled` and
  `checkScheduledPostsWith`; the Postgres store operations they use
  (`GetHistory`, `GetPendingScheduledPosts`, `UpdateScheduledPostStatus`)
  become pure functions on `StoreState`.

Timestamps and durations are integers counting seconds, so the fixed
5-minute retry backoff is `300`, the 1-minute warm-up is `60`, the
10-second catch-up clamp is `10`, and `intervalHours` hours is
`intervalHours * 3600`.
-/

namespace ContentQueue

/-- Job types, from the `JobType` constants in the scheduler package
(`run`, `sync`, `plan`, `publish`). -/
inductive JobType
  | run
  | sync
  | plan
  | publish
deriving DecidableEq

/-- Job statuses, from the `JobStatus` constants in the scheduler package. -/
inductive JobStatus
  | pending
  | running
  | completed
  | failed
deriving DecidableEq

/-- One row of the `jobs` table (struct `Job` in the scheduler package).
`nextRunAt` is a timestamp in seconds. -/
structure Job where
  id : Nat
  brandID : String
  type : JobType
  status : JobStatus
  retries : Nat
  nextRunAt : Int
  payload : String
  error : String
deriving DecidableEq

/-- The durable queue: the `jobs` table of `SQLiteQueue`, in insertion
(= ascending id) order, plus the next auto-increment id. -/
structure QueueState where
  jobs : List Job
  nextId : Nat
deriving DecidableEq

/-- `SQLiteQueue.Enqueue`: insert a new Pending job with
`next_run_at = now + delay` and a fresh auto-increment id. -/
def enqueue (s : QueueState) (brandID : String) (t : JobType) (delay : Int)
    (payload : String) (now : Int) : QueueState :=
  { jobs := s.jobs ++
      [{ id := s.nextId, brandID := brandID, type := t,
         status := JobStatus.pending, retries := 0, nextRunAt := now + delay,
         payload := payload, error := "" }],
    nextId := s.nextId + 1 }

/-- The `WHERE status = 'pending' AND next_run_at <= now` filter of
`SQLiteQueue.Dequeue`. -/
def isDue (now : Int) (j : Job) : Bool :=
  decide (j.status = JobStatus.pending ∧ j.nextRunAt ≤ now)

/-- The `SELECT ... ORDER BY next_run_at ASC LIMIT 1` of
`SQLiteQueue.Dequeue`: the due Pending row with the smallest
`next_run_at`, earliest row first on ties. -/
def selectDue (now : Int) : List Job → Option Job
  | [] => none
  | j :: rest =>
    match selectDue now rest with
    | none => if isDue now j then some j else none
    | some k =>
      if isDue now j ∧ j.nextRunAt ≤ k.nextRunAt then some j else some k

/-- An `UPDATE jobs SET ... WHERE id = i` statement: apply `f` to the
rows whose id is `i`. -/
def updJob (i : Nat) (f : Job → Job) (jobs : List Job) : List Job :=
  jobs.map fun j => if j.id = i then f j else j

/-- `SQLiteQueue.Dequeue`: inside one transaction, select the oldest-due
Pending job, flip it to Running, and return the copy (whose `Status`
field the Go code sets to `running` before returning). -/
def dequeue (s : QueueState) (now : Int) : Option Job × QueueState :=
  match selectDue now s.jobs with
  | none => (none, s)
  | some j =>
    (some { j with status := JobStatus.running },
     { s with jobs := updJob j.id (fun x => { x with status := JobStatus.running }) s.jobs })

/-- `SQLiteQueue.Ack`: `DELETE FROM jobs WHERE id = ?`. -/
def ack (s : QueueState) (i : Nat) : QueueState :=
  { s with jobs := s.jobs.filter fun j => !(decide (j.id = i)) }

/-- `SQLiteQueue.Fail`: with `retry`, reset the row to Pending, bump
`retries`, push `next_run_at` to `now + 300` (the fixed 5-minute
backoff) and record the message; without `retry`, set the row to Failed
and record the message. -/
def fail (s : QueueState) (i : Nat) (msg : String) (retry : Bool) (now : Int) :
    QueueState :=
  if retry then
    { s with jobs := updJob i (fun j =>
        { j with status := JobStatus.pending, retries := j.retries + 1,
                 nextRunAt := now + 300, error := msg }) s.jobs }
  else
    { s with jobs := updJob i (fun j =>
        { j with status := JobStatus.failed, error := msg }) s.jobs }

/-- `SQLiteQueue.HasPendingJob`: `COUNT(*) > 0` over the brand's rows in
status `pending` or `running`. -/
def hasPendingJob (s : QueueState) (b : String) : Bool :=
  s.jobs.any fun j =>
    decide (j.brandID = b ∧ (j.status = JobStatus.pending ∨ j.status = JobStatus.running))

/-- The row of the `jobs` table with id `i` (`SELECT ... WHERE id = i`). -/
def findJob (s : QueueState) (i : Nat) : Option Job :=
  s.jobs.find? fun j => decide (j.id = i)

/-- Whether one `Dequeue` result is a claim of the job with id `i`. -/
def claimedBy (i : Nat) : Option Job → Bool
  | some r => decide (r.id = i)
  | none => false

/-- Number of due Pending rows at time `now`. -/
def dueCount (s : QueueState) (now : Int) : Nat :=
  s.jobs.countP (isDue now)

/-- A serialized sequence of `Dequeue` transactions, one per timestamp in
`ts`; SQLite serializes the write transactions of concurrent callers, so
`N` concurrent callers at time `now` are `dequeueSeq s (List.replicate N now)`. -/
def dequeueSeq (s : QueueState) : List Int → List (Option Job) × QueueState
  | [] => ([], s)
  | t :: ts =>
    let p := dequeue s t
    let r := dequeueSeq p.2 ts
    (p.1 :: r.1, r.2)

/-! ## Worker (scheduler/worker.go) -/

/-- `Worker.Process` on a claimed job.  The per-brand agent and its four
dispatched operations are externally owned and opaque, so `factoryErr` is
the result of `AgentFactory(job.BrandID)` and `opErr` the result of the
dispatched operation.  Returns the resulting queue state and whether the
dispatch (the `switch job.Type` body) ran at all.  On a factory error the
Go code calls `Fail(id, err, false)`; on an operation error it calls
`Fail(id, err, retry)` with `retry := job.Retries < 3` read from the
claimed copy; on success it calls `Ack(id)`. -/
def processJob (s : QueueState) (job : Job) (factoryErr : Option String)
    (opErr : Option String) (now : Int) : QueueState × Bool :=
  match factoryErr with
  | some e => (fail s job.id e false now, false)
  | none =>
    match opErr with
    | some e => (fail s job.id e (decide (job.retries < 3)) now, true)
    | none => (ack s job.id, true)

/-- One worker tick in which the dequeued job's dispatched operation
fails with message `msg` at time `t`: `Dequeue` followed by
`Worker.Process` with a successful factory and a failing operation. -/
def failCycle (s : QueueState) (msg : String) (t : Int) : QueueState :=
  match dequeue s t with
  | (some r, s1) => (processJob s1 r none (some msg) t).1
  | (none, s1) => s1

/-! ## Content store (memory package, PostgresStore) -/

/-- Modelled from the spec: the `models` package is not under `src/`, so
the `models.PostStatus` constants used by the scheduler
(`StatusApproved`, `StatusScheduled`, `StatusPublished`, ...) are taken
from the spec's ScheduledPost states `{Pending, Approved, Scheduled,
Published}` — four distinct states. -/
inductive PostStatus
  | draft
  | approved
  | scheduled
  | published
deriving DecidableEq

/-- A row of the `posts` table, restricted to the fields the scheduler
reads (`brand_id`, `created_at`); `GetHistory` orders by `created_at`. -/
structure Post where
  id : String
  brandID : String
  createdAt : Int
deriving DecidableEq

/-- A row of the `scheduled_posts` table, restricted to the fields the
scheduler reads (`models.ScheduledPost`). -/
structure ScheduledPost where
  id : String
  brandID : String
  status : PostStatus
  scheduledAt : Int
deriving DecidableEq

/-- The content store's two tables the scheduler touches. -/
structure StoreState where
  posts : List Post
  scheduledPosts : List ScheduledPost
deriving DecidableEq

/-- Insert a post into a list kept in descending `created_at` order. -/
def insertByCreatedDesc (p : Post) : List Post → List Post
  | [] => [p]
  | q :: rest =>
    if q.createdAt ≤ p.createdAt then p :: q :: rest
    else q :: insertByCreatedDesc p rest

/-- Sort posts by `created_at` in descending order (the
`ORDER BY created_at DESC` of `PostgresStore.GetHistory`). -/
def sortByCreatedDesc : List Post → List Post
  | [] => []
  | p :: rest => insertByCreatedDesc p (sortByCreatedDesc rest)

/-- `PostgresStore.GetHistory`: the brand's posts ordered by
`created_at DESC`. -/
def getHistory (st : StoreState) (b : String) : List Post :=
  sortByCreatedDesc (st.posts.filter fun p => decide (p.brandID = b))

/-- `PostgresStore.GetPendingScheduledPosts`: the scheduled posts with
`status = 'approved' AND scheduled_at <= now`. -/
def getPendingScheduledPosts (st : StoreState) (now : Int) : List ScheduledPost :=
  st.scheduledPosts.filter fun p =>
    decide (p.status = PostStatus.approved ∧ p.scheduledAt ≤ now)

/-- `PostgresStore.UpdateScheduledPostStatus`:
`UPDATE scheduled_posts SET status = ? WHERE id = ?`. -/
def updateScheduledPostStatus (st : StoreState) (i : String) (status : PostStatus) :
    StoreState :=
  { st with scheduledPosts := st.scheduledPosts.map fun p =>
      if p.id = i then { p with status := status } else p }

/-- Status of the scheduled post with id `i`. -/
def statusOf (st : StoreState) (i : String) : Option PostStatus :=
  (st.scheduledPosts.find? fun p => decide (p.id = i)).map ScheduledPost.status

/-! ## Scheduler (scheduler package, part of `Scheduler`) -/

/-- The scheduler's world: the job queue plus the content store. -/
structure SchedState where
  queue : QueueState
  store : StoreState
deriving DecidableEq

/-- The delay computation of `Scheduler.EnsureScheduled`: default the
interval to 4 hours when non-positive; with history, the delay until
`lastPost.CreatedAt + intervalHours`, clamped to 10 seconds when
negative; without history, a fixed 1-minute warm-up. -/
def computeDelay (st : StoreState) (b : String) (intervalHours : Int) (now : Int) :
    Int :=
  let interval := if intervalHours ≤ 0 then 4 else intervalHours
  match getHistory st b with
  | [] => 60
  | p :: _ =>
    let d := p.createdAt + interval * 3600 - now
    if d < 0 then 10 else d

/-- `Scheduler.EnsureScheduled`: no-op when `HasPendingJob(brandID)`
holds, otherwise enqueue a Cycle (`run`) job with the computed delay and
empty payload. -/
def ensureScheduled (s : SchedState) (b : String) (intervalHours : Int) (now : Int) :
    SchedState :=
  if hasPendingJob s.queue b then s
  else { s with queue := enqueue s.queue b JobType.run
                  (computeDelay s.store b intervalHours now) "" now }

/-- The body of the loop of `Scheduler.CheckScheduledPosts` for one due
post: call `Queue.Enqueue(p.BrandID, publish, 0, p.ID)` — whose result
the Go code ignores — then flip the post's status to Scheduled.
`enqOk p.id` says whether that `Enqueue` call succeeds (a failing
`Enqueue` inserts nothing). -/
def publishStep (enqOk : String → Bool) (now : Int) (acc : SchedState)
    (p : ScheduledPost) : SchedState :=
  let q := if enqOk p.id then enqueue acc.queue p.brandID JobType.publish 0 p.id now
           else acc.queue
  { queue := q, store := updateScheduledPostStatus acc.store p.id PostStatus.scheduled }

/-- `Scheduler.CheckScheduledPosts` with an explicit outcome `enqOk` for
each `Enqueue` call: fetch the due Approved posts once, then run
`publishStep` over them. -/
def checkScheduledPostsWith (enqOk : String → Bool) (s : SchedState) (now : Int) :
    SchedState :=
  (getPendingScheduledPosts s.store now).foldl (publishStep enqOk now) s

/-- `Scheduler.CheckScheduledPosts` when every `Enqueue` succeeds. -/
def checkScheduledPosts (s : SchedState) (now : Int) : SchedState :=
  checkScheduledPostsWith (fun _ => true) s now

/-- Repeated scheduler passes of `CheckScheduledPosts`, one per
timestamp. -/
def applyPasses (s : SchedState) (ts : List Int) : SchedState :=
  ts.foldl checkScheduledPosts s

/-- Number of Publish jobs in the queue whose payload is `pid`. -/
def publishCount (q : QueueState) (pid : String) : Nat :=
  q.jobs.countP fun j => decide (j.type = JobType.publish ∧ j.payload = pid)

/-! ## Generic lemmas about keyed row updates -/

section KeyedRows

variable {α : Type} {κ : Type} [DecidableEq κ]

/-- A list update keyed on `key` commutes with `find?` keyed on `key`,
provided the update preserves keys. -/
theorem find?_map_upd (key : α → κ) (f : α → α) (hf : ∀ a, key (f a) = key a)
    (i k : κ) (l : List α) :
    (l.map fun a => if key a = i then f a else a).find?
        (fun a => decide (key a = k)) =
      (l.find? fun a => decide (key a = k)).map
        (fun a => if key a = i then f a else a) := by
  induction l with
  | nil => simp
  | cons a tl ih =>
    by_cases hai : key a = i
    · by_cases hak : key a = k
      · have hik : i = k := hai.symm.trans hak
        subst hik
        simp [List.find?_cons, hai, hf]
      · have hik : ¬ i = k := fun h => hak (h ▸ hai)
        simp [List.find?_cons, hai, hak, hik, hf, ih]
    · by_cases hak : key a = k
      · have hik : ¬ k = i := fun h => hai (h ▸ hak)
        simp [List.find?_cons, hai, hak, hik]
      · simp [List.find?_cons, hai, hak, ih]

/-- A keyed update whose key occurs nowhere in the list is the identity. -/
theorem map_upd_eq_self (key : α → κ) (f : α → α) (i : κ) (l : List α)
    (h : ∀ x ∈ l, key x ≠ i) :
    (l.map fun a => if key a = i then f a else a) = l := by
  induction l with
  | nil => rfl
  | cons a tl ih =>
    have ha : key a ≠ i := h a (List.mem_cons_self a tl)
    simp only [List.map_cons, if_neg ha]
    rw [ih fun x hx => h x (List.mem_cons_of_mem a hx)]

/-- In a list with pairwise-distinct keys, `find?` by a member's key
returns exactly that member. -/
theorem find?_eq_some_of_nodup (key : α → κ) (l : List α) (a : α)
    (hnd : (l.map key).Nodup) (ha : a ∈ l) :
    l.find? (fun x => decide (key x = key a)) = some a := by
  induction l with
  | nil => cases ha
  | cons b tl ih =>
    have hnd' : key b ∉ tl.map key ∧ (tl.map key).Nodup := by
      rw [List.map_cons] at hnd
      exact List.nodup_cons.mp hnd
    rcases List.mem_cons.mp ha with rfl | ha'
    · simp
    · have hbf : decide (key b = key a) = false := by
        simp only [decide_eq_false_iff_not]
        intro h
        exact hnd'.1 (by rw [h]; exact List.mem_map_of_mem key ha')
      simp only [List.find?_cons, hbf]
      exact ih hnd'.2 ha'

/-- Counting with a predicate after a keyed update of one member that
satisfied the predicate into a value that does not: the count drops by
one, when keys are pairwise distinct. -/
theorem countP_map_upd (key : α → κ) (f : α → α) (p : α → Bool) (l : List α)
    (a : α) (hnd : (l.map key).Nodup) (ha : a ∈ l) (hpa : p a = true)
    (hpf : p (f a) = false) :
    (l.map fun x => if key x = key a then f x else x).countP p =
      l.countP p - 1 := by
  induction l with
  | nil => cases ha
  | cons b tl ih =>
    have hnd' : key b ∉ tl.map key ∧ (tl.map key).Nodup := by
      rw [List.map_cons] at hnd
      exact List.nodup_cons.mp hnd
    rcases List.mem_cons.mp ha with rfl | ha'
    · have htl : ∀ x ∈ tl, key x ≠ key a := by
        intro x hx h
        exact hnd'.1 (by rw [← h]; exact List.mem_map_of_mem key hx)
      simp only [List.map_cons, if_pos rfl]
      rw [map_upd_eq_self key f (key a) tl htl]
      simp [List.countP_cons, hpa, hpf]
    · have hb : ¬ key b = key a := by
        intro h
        exact hnd'.1 (by rw [h]; exact List.mem_map_of_mem key ha')
      have hpos : 0 < tl.countP p :=
        List.countP_pos_iff.mpr ⟨a, ha', hpa⟩
      simp only [List.map_cons, if_neg hb, List.countP_cons]
      rw [ih hnd'.2 ha']
      omega

/-- In a list with pairwise-distinct keys, exactly one member carries a
member's key. -/
theorem countP_key_eq_one (key : α → κ) (l : List α) (a : α)
    (hnd : (l.map key).Nodup) (ha : a ∈ l) :
    l.countP (fun x => decide (key x = key a)) = 1 := by
  induction l with
  | nil => cases ha
  | cons b tl ih =>
    have hnd' : key b ∉ tl.map key ∧ (tl.map key).Nodup := by
      rw [List.map_cons] at hnd
      exact List.nodup_cons.mp hnd
    rcases List.mem_cons.mp ha with rfl | ha'
    · have htl : tl.countP (fun x => decide (key x = key a)) = 0 := by
        apply List.countP_eq_zero.mpr
        intro x hx
        simp only [decide_eq_true_eq]
        intro h
        exact hnd'.1 (by rw [← h]; exact List.mem_map_of_mem key hx)
      simp [List.countP_cons, htl]
    · have hb : ¬ key b = key a := by
        intro h
        exact hnd'.1 (by rw [h]; exact List.mem_map_of_mem key ha')
      simp [List.countP_cons, hb, ih hnd'.2 ha']

end KeyedRows

/-! ## The selection of `Dequeue` -/

/-- Full specification of `selectDue`: when it returns `none` nothing is
due, and when it returns a job that job is a due member with minimal
`nextRunAt` among all due members. -/
theorem selectDue_spec (now : Int) (l : List Job) :
    (selectDue now l = none → ∀ k ∈ l, isDue now k = false)
    ∧ (∀ j, selectDue now l = some j → j ∈ l ∧ isDue now j = true ∧
        ∀ k ∈ l, isDue now k = true → j.nextRunAt ≤ k.nextRunAt) := by
  induction l with
  | nil =>
    refine ⟨fun _ k hk => absurd hk (List.not_mem_nil k), fun j h => ?_⟩
    simp [selectDue] at h
  | cons a tl ih =>
    obtain ⟨ihn, ihs⟩ := ih
    cases htl : selectDue now tl with
    | none =>
      by_cases hda : isDue now a = true
      · refine ⟨fun h => ?_, fun j h => ?_⟩
        · rw [selectDue, htl] at h
          simp [hda] at h
        · rw [selectDue, htl] at h
          simp only [hda, if_true] at h
          cases h
          refine ⟨List.mem_cons_self a tl, hda, ?_⟩
          intro k hk hdk
          rcases List.mem_cons.mp hk with rfl | hk'
          · exact le_refl _
          · rw [ihn htl k hk'] at hdk
            cases hdk
      · refine ⟨fun _ k hk => ?_, fun j h => ?_⟩
        · rcases List.mem_cons.mp hk with rfl | hk'
          · exact Bool.eq_false_iff.mpr hda
          · exact ihn htl k hk'
        · rw [selectDue, htl] at h
          simp [hda] at h
    | some m =>
      obtain ⟨hmem, hmdue, hmmin⟩ := ihs m htl
      refine ⟨fun h => ?_, fun j h => ?_⟩
      · rw [selectDue, htl] at h
        change (if isDue now a = true ∧ a.nextRunAt ≤ m.nextRunAt
                then some a else some m) = none at h
        by_cases hc : isDue now a = true ∧ a.nextRunAt ≤ m.nextRunAt <;>
          simp [hc] at h
      · rw [selectDue, htl] at h
        change (if isDue now a = true ∧ a.nextRunAt ≤ m.nextRunAt
                then some a else some m) = some j at h
        by_cases hc : isDue now a = true ∧ a.nextRunAt ≤ m.nextRunAt
        · rw [if_pos hc] at h
          cases h
          refine ⟨List.mem_cons_self a tl, hc.1, ?_⟩
          intro k hk hdk
          rcases List.mem_cons.mp hk with rfl | hk'
          · exact le_refl _
          · exact le_trans hc.2 (hmmin k hk' hdk)
        · rw [if_neg hc] at h
          cases h
          refine ⟨List.mem_cons_of_mem a hmem, hmdue, ?_⟩
          intro k hk hdk
          rcases List.mem_cons.mp hk with rfl | hk'
          · rcases Decidable.em (k.nextRunAt ≤ m.nextRunAt) with hle | hle
            · exact absurd ⟨hdk, hle⟩ hc
            · omega
          · exact hmmin k hk' hdk

/-! ## Queue-level lemmas -/

/-- `updJob` preserves the ids of the rows, provided `f` does. -/
theorem updJob_map_id (i : Nat) (f : Job → Job) (hf : ∀ j, (f j).id = j.id)
    (l : List Job) : (updJob i f l).map Job.id = l.map Job.id := by
  induction l with
  | nil => rfl
  | cons a tl ih =>
    simp only [updJob, List.map_cons] at *
    by_cases ha : a.id = i <;> simp [ha, hf, ih]

/-- `find?` by id after an `updJob`. -/
theorem find?_updJob (i k : Nat) (f : Job → Job) (hf : ∀ j, (f j).id = j.id)
    (l : List Job) :
    ((updJob i f l).find? fun j => decide (j.id = k)) =
      (l.find? fun j => decide (j.id = k)).map
        (fun j => if j.id = i then f j else j) :=
  find?_map_upd Job.id f hf i k l

/-- A member's row is what `find?` by its id returns, when ids are
pairwise distinct. -/
theorem find?_id_of_mem (l : List Job) (j : Job) (hnd : (l.map Job.id).Nodup)
    (hj : j ∈ l) : (l.find? fun x => decide (x.id = j.id)) = some j :=
  find?_eq_some_of_nodup Job.id l j hnd hj

/-- A successful `dequeue` is the flip of the single selected row. -/
theorem dequeue_some_spec (s : QueueState) (now : Int) (r : Job) (s' : QueueState)
    (h : dequeue s now = (some r, s')) :
    ∃ j, selectDue now s.jobs = some j ∧
      r = { j with status := JobStatus.running } ∧
      s'.jobs = updJob j.id (fun x => { x with status := JobStatus.running }) s.jobs ∧
      s'.nextId = s.nextId := by
  unfold dequeue at h
  cases hsel : selectDue now s.jobs with
  | none =>
    rw [hsel] at h
    simp at h
  | some j =>
    rw [hsel] at h
    simp only [Prod.mk.injEq] at h
    obtain ⟨h1, h2⟩ := h
    injection h1 with h1
    exact ⟨j, rfl, h1.symm, by rw [← h2], by rw [← h2]⟩

/-- A `dequeue` returning `none` leaves the state unchanged and means
nothing is due. -/
theorem dequeue_none_spec (s : QueueState) (now : Int) (s' : QueueState)
    (h : dequeue s now = (none, s')) :
    s' = s ∧ ∀ k ∈ s.jobs, isDue now k = false := by
  unfold dequeue at h
  cases hsel : selectDue now s.jobs with
  | none =>
    rw [hsel] at h
    simp only [Prod.mk.injEq] at h
    exact ⟨h.2.symm, (selectDue_spec now s.jobs).1 hsel⟩
  | some j =>
    rw [hsel] at h
    simp at h

/-- A `dequeue` never claims a row that is not Pending: the row keeps its
record, the result is not a claim of it, and id-distinctness survives. -/
theorem dequeue_nonpending (s : QueueState) (now : Int) (i : Nat) (jr : Job)
    (hnd : (s.jobs.map Job.id).Nodup) (hfind : findJob s i = some jr)
    (hst : jr.status ≠ JobStatus.pending) :
    claimedBy i (dequeue s now).1 = false ∧
    findJob (dequeue s now).2 i = some jr ∧
    ((dequeue s now).2.jobs.map Job.id).Nodup := by
  have hjrid : jr.id = i := by
    have := List.find?_some hfind
    simpa using this
  cases hq : dequeue s now with
  | mk o s' =>
    cases o with
    | none =>
      obtain ⟨rfl, _⟩ := dequeue_none_spec s now s' hq
      exact ⟨rfl, hfind, hnd⟩
    | some r =>
      obtain ⟨j, hsel, hr, hjobs, _⟩ := dequeue_some_spec s now r s' hq
      obtain ⟨hmem, hdue, _⟩ := (selectDue_spec now s.jobs).2 j hsel
      have hjp : j.status = JobStatus.pending := by
        have := of_decide_eq_true hdue
        exact this.1
      have hji : j.id ≠ i := by
        intro hcontra
        have h1 : (s.jobs.find? fun x => decide (x.id = j.id)) = some j :=
          find?_id_of_mem s.jobs j hnd hmem
        rw [hcontra] at h1
        rw [findJob] at hfind
        rw [hfind] at h1
        injection h1 with h1
        exact hst (by rw [h1]; exact hjp)
      refine ⟨?_, ?_, ?_⟩
      · simp [claimedBy, hr, hji]
      · rw [findJob, hjobs,
          find?_updJob j.id i (fun x => { x with status := JobStatus.running })
            (fun _ => rfl)]
        rw [findJob] at hfind
        rw [hfind]
        have hne : ¬ jr.id = j.id := by
          rw [hjrid]
          exact fun h => hji h.symm
        simp [hne]
      · rw [hjobs,
          updJob_map_id j.id (fun x => { x with status := JobStatus.running })
            (fun _ => rfl)]
        exact hnd

/-- Across any serialized sequence of `Dequeue` transactions, a row that
is not Pending is never claimed. -/
theorem dequeueSeq_no_claim (i : Nat) (jr : Job) (ts : List Int) :
    ∀ (s : QueueState), (s.jobs.map Job.id).Nodup → findJob s i = some jr →
      jr.status ≠ JobStatus.pending →
      (dequeueSeq s ts).1.countP (claimedBy i) = 0 := by
  induction ts with
  | nil => intro s _ _ _; simp [dequeueSeq]
  | cons t ts ih =>
    intro s hnd hf hs
    obtain ⟨h1, h2, h3⟩ := dequeue_nonpending s t i jr hnd hf hs
    simp only [dequeueSeq, List.countP_cons, h1]
    rw [ih _ h3 h2 hs]
    simp

/-- `fail` preserves the ids of the rows. -/
theorem fail_map_id (s : QueueState) (i : Nat) (msg : String) (retry : Bool)
    (now : Int) :
    ((fail s i msg retry now).jobs.map Job.id) = s.jobs.map Job.id := by
  cases retry with
  | true =>
    show ((updJob i (fun j =>
        { j with status := JobStatus.pending, retries := j.retries + 1,
                 nextRunAt := now + 300, error := msg }) s.jobs).map Job.id) =
      s.jobs.map Job.id
    exact updJob_map_id i (fun j =>
        { j with status := JobStatus.pending, retries := j.retries + 1,
                 nextRunAt := now + 300, error := msg }) (fun _ => rfl) s.jobs
  | false =>
    show ((updJob i (fun j =>
        { j with status := JobStatus.failed, error := msg }) s.jobs).map Job.id) =
      s.jobs.map Job.id
    exact updJob_map_id i (fun j =>
        { j with status := JobStatus.failed, error := msg }) (fun _ => rfl) s.jobs

/-- A successful `dequeue` decrements the number of due Pending rows. -/
theorem dueCount_after_dequeue (s : QueueState) (now : Int) (r : Job)
    (s' : QueueState) (hnd : (s.jobs.map Job.id).Nodup)
    (h : dequeue s now = (some r, s')) :
    dueCount s' now = dueCount s now - 1 := by
  obtain ⟨j, hsel, _, hjobs, _⟩ := dequeue_some_spec s now r s' h
  obtain ⟨hmem, hdue, _⟩ := (selectDue_spec now s.jobs).2 j hsel
  have hff : isDue now { j with status := JobStatus.running } = false := by
    simp [isDue]
  rw [dueCount, hjobs, dueCount]
  exact countP_map_upd Job.id _ (isDue now) s.jobs j hnd hmem hdue hff

/-- When some row is due, `dequeue` claims one. -/
theorem dequeue_of_due (s : QueueState) (now : Int) (h : 0 < dueCount s now) :
    ∃ r s', dequeue s now = (some r, s') := by
  obtain ⟨j, hj, hdue⟩ := List.countP_pos_iff.mp h
  cases hsel : selectDue now s.jobs with
  | none =>
    have := (selectDue_spec now s.jobs).1 hsel j hj
    rw [hdue] at this
    cases this
  | some k =>
    refine ⟨{ k with status := JobStatus.running },
      { s with jobs :=
          updJob k.id (fun x => { x with status := JobStatus.running }) s.jobs },
      ?_⟩
    unfold dequeue
    rw [hsel]

/-- Unfolding of one step of `dequeueSeq`. -/
theorem dequeueSeq_cons (s : QueueState) (t : Int) (ts : List Int) :
    dequeueSeq s (t :: ts) =
      ((dequeue s t).1 :: (dequeueSeq (dequeue s t).2 ts).1,
       (dequeueSeq (dequeue s t).2 ts).2) := rfl

/-- A `dequeue` that claims a different row leaves the row with id `i`
untouched. -/
theorem findJob_dequeue_other (s : QueueState) (now : Int) (r : Job)
    (s' : QueueState) (i : Nat) (h : dequeue s now = (some r, s'))
    (hne : r.id ≠ i) : findJob s' i = findJob s i := by
  obtain ⟨j, hsel, hr, hjobs, _⟩ := dequeue_some_spec s now r s' h
  have hji : j.id ≠ i := by
    rw [hr] at hne
    exact hne
  rw [findJob, hjobs,
    find?_updJob j.id i (fun x => { x with status := JobStatus.running })
      (fun _ => rfl), findJob]
  cases hf : s.jobs.find? (fun x => decide (x.id = i)) with
  | none => rfl
  | some jx =>
    have hxid : jx.id = i := by simpa using List.find?_some hf
    have : ¬ jx.id = j.id := by
      rw [hxid]
      exact fun hc => hji hc.symm
    simp [this]

/-- Across any serialized sequence of `Dequeue` transactions on a queue
with pairwise-distinct ids, at most one transaction claims the row with
id `i`. -/
theorem dequeueSeq_at_most_one (i : Nat) (ts : List Int) :
    ∀ (s : QueueState), (s.jobs.map Job.id).Nodup →
      (dequeueSeq s ts).1.countP (claimedBy i) ≤ 1 := by
  induction ts with
  | nil => intro s _; simp [dequeueSeq]
  | cons t ts ih =>
    intro s hnd
    cases hq : dequeue s t with
    | mk o s' =>
      have hstep : (dequeueSeq s (t :: ts)).1 = o :: (dequeueSeq s' ts).1 := by
        rw [dequeueSeq_cons, hq]
      rw [hstep]
      cases o with
      | none =>
        obtain ⟨heq, _⟩ := dequeue_none_spec s t s' hq
        rw [List.countP_cons_of_neg (claimedBy i) _ (by simp [claimedBy]), heq]
        exact ih s hnd
      | some r =>
        obtain ⟨j, hsel, hr, hjobs, _⟩ := dequeue_some_spec s t r s' hq
        have hmem := ((selectDue_spec t s.jobs).2 j hsel).1
        have hnd' : (s'.jobs.map Job.id).Nodup := by
          rw [hjobs,
            updJob_map_id j.id (fun x => { x with status := JobStatus.running })
              (fun _ => rfl)]
          exact hnd
        by_cases hcase : r.id = i
        · have hji : j.id = i := by
            rw [hr] at hcase
            exact hcase
          have hfind' : findJob s' i = some { j with status := JobStatus.running } := by
            have h1 := find?_id_of_mem s.jobs j hnd hmem
            rw [hji] at h1
            rw [findJob, hjobs,
              find?_updJob j.id i (fun x => { x with status := JobStatus.running })
                (fun _ => rfl), h1]
            simp [hji]
          have hzero := dequeueSeq_no_claim i { j with status := JobStatus.running }
            ts s' hnd' hfind' (by intro hc; cases hc)
          rw [List.countP_cons_of_pos (claimedBy i) _
            (by simp [claimedBy, hcase]), hzero]
        · rw [List.countP_cons_of_neg (claimedBy i) _
            (by simp [claimedBy, hcase])]
          exact ih s' hnd'

/-- Across a serialized sequence of `Dequeue` transactions, a due
Pending row is claimed by exactly one transaction once at least
`dueCount` many run, and the claimer receives the flipped copy. -/
theorem dequeueSeq_exactly_one (i : Nat) (now : Int) :
    ∀ (n : Nat) (s : QueueState) (j₀ : Job),
      (s.jobs.map Job.id).Nodup → findJob s i = some j₀ →
      j₀.status = JobStatus.pending → j₀.nextRunAt ≤ now →
      dueCount s now ≤ n →
      (dequeueSeq s (List.replicate n now)).1.countP (claimedBy i) = 1 ∧
      (some { j₀ with status := JobStatus.running }) ∈
        (dequeueSeq s (List.replicate n now)).1 := by
  intro n
  induction n with
  | zero =>
    intro s j₀ hnd hfind hp hdue hcnt
    exfalso
    have hmem : j₀ ∈ s.jobs := List.mem_of_find?_eq_some hfind
    have : 0 < dueCount s now :=
      List.countP_pos_iff.mpr ⟨j₀, hmem, by simp [isDue, hp, hdue]⟩
    omega
  | succ n ih =>
    intro s j₀ hnd hfind hp hdue hcnt
    have hmem : j₀ ∈ s.jobs := List.mem_of_find?_eq_some hfind
    have hjid : j₀.id = i := by simpa using List.find?_some hfind
    have hdpos : 0 < dueCount s now :=
      List.countP_pos_iff.mpr ⟨j₀, hmem, by simp [isDue, hp, hdue]⟩
    obtain ⟨r, s', hq⟩ := dequeue_of_due s now hdpos
    obtain ⟨j, hsel, hr, hjobs, _⟩ := dequeue_some_spec s now r s' hq
    have hjmem := ((selectDue_spec now s.jobs).2 j hsel).1
    have hnd' : (s'.jobs.map Job.id).Nodup := by
      rw [hjobs,
        updJob_map_id j.id (fun x => { x with status := JobStatus.running })
          (fun _ => rfl)]
      exact hnd
    have hstep : (dequeueSeq s (List.replicate (n + 1) now)).1 =
        some r :: (dequeueSeq s' (List.replicate n now)).1 := by
      rw [List.replicate_succ, dequeueSeq_cons, hq]
    rw [hstep]
    by_cases hcase : r.id = i
    · have hji : j.id = i := by
        rw [hr] at hcase
        exact hcase
      have hjj : j = j₀ := by
        have h1 := find?_id_of_mem s.jobs j hnd hjmem
        rw [hji] at h1
        rw [findJob] at hfind
        rw [hfind] at h1
        injection h1 with h1
        exact h1.symm
      subst hjj
      have hfind' : findJob s' i = some { j with status := JobStatus.running } := by
        have h1 := find?_id_of_mem s.jobs j hnd hjmem
        rw [hji] at h1
        rw [findJob, hjobs,
          find?_updJob j.id i (fun x => { x with status := JobStatus.running })
            (fun _ => rfl), h1]
        simp [hji]
      have hzero := dequeueSeq_no_claim i { j with status := JobStatus.running }
        (List.replicate n now) s' hnd' hfind' (by intro hc; cases hc)
      constructor
      · rw [List.countP_cons_of_pos (claimedBy i) _
          (by simp [claimedBy, hcase]), hzero]
      · rw [hr]
        exact List.mem_cons_self _ _
    · have hji : j.id ≠ i := by
        rw [hr] at hcase
        exact hcase
      have hfind' : findJob s' i = some j₀ := by
        rw [findJob_dequeue_other s now r s' i hq hcase]
        exact hfind
      have hcnt' : dueCount s' now ≤ n := by
        have := dueCount_after_dequeue s now r s' hnd hq
        omega
      obtain ⟨ihc, ihm⟩ := ih s' j₀ hnd' hfind' hp hdue hcnt'
      constructor
      · rw [List.countP_cons_of_neg (claimedBy i) _
          (by simp [claimedBy, hcase])]
        exact ihc
      · exact List.mem_cons_of_mem _ ihm

/-- C1.  At-most-one claim: with the claim transaction of `Dequeue`
modelled as an atomic step (SQLite serializes the transactions of
concurrent callers), `N` concurrent `Dequeue` calls on a store whose job
ids are pairwise distinct claim a given Pending job at most once; and as
soon as `N` is at least the number of due Pending jobs, exactly one
caller observes that job — returned with its status flipped to Running —
while every other caller, by the count being one, receives a different
job or none. -/
theorem dequeue_at_most_one_claim (s : QueueState) (i : Nat) (j₀ : Job)
    (now : Int) (n : Nat)
    (hnd : (s.jobs.map Job.id).Nodup)
    (hfind : findJob s i = some j₀)
    (hp : j₀.status = JobStatus.pending)
    (hdue : j₀.nextRunAt ≤ now) :
    (dequeueSeq s (List.replicate n now)).1.countP (claimedBy i) ≤ 1 ∧
    (dueCount s now ≤ n →
      (dequeueSeq s (List.replicate n now)).1.countP (claimedBy i) = 1 ∧
      (some { j₀ with status := JobStatus.running }) ∈
        (dequeueSeq s (List.replicate n now)).1) :=
  ⟨dequeueSeq_at_most_one i (List.replicate n now) s hnd,
   fun hcnt => dequeueSeq_exactly_one i now n s j₀ hnd hfind hp hdue hcnt⟩

/-- C3.  Dequeue contract: on a queue with pairwise-distinct ids,
`dequeue` returning `none` leaves the store unchanged and means no
Pending job is due; `dequeue` returning a job means that job was a
Pending job with `nextRunAt ≤ now`, minimal `nextRunAt` among all due
Pending jobs (so Running or Failed jobs are never selected), the
returned copy is the job with its status flipped to Running, exactly
that row is flipped in the store, and every other row is unchanged. -/
theorem dequeue_contract (s : QueueState) (now : Int)
    (hnd : (s.jobs.map Job.id).Nodup) :
    (∀ s', dequeue s now = (none, s') →
      s' = s ∧ ∀ k ∈ s.jobs, ¬(k.status = JobStatus.pending ∧ k.nextRunAt ≤ now)) ∧
    (∀ r s', dequeue s now = (some r, s') →
      ∃ j ∈ s.jobs, j.status = JobStatus.pending ∧ j.nextRunAt ≤ now ∧
        (∀ k ∈ s.jobs, k.status = JobStatus.pending → k.nextRunAt ≤ now →
          j.nextRunAt ≤ k.nextRunAt) ∧
        r = { j with status := JobStatus.running } ∧
        findJob s' j.id = some { j with status := JobStatus.running } ∧
        (∀ i', i' ≠ j.id → findJob s' i' = findJob s i') ∧
        s'.jobs.length = s.jobs.length) := by
  constructor
  · intro s' h
    obtain ⟨heq, hnone⟩ := dequeue_none_spec s now s' h
    refine ⟨heq, fun k hk hc => ?_⟩
    have := hnone k hk
    rw [isDue] at this
    rw [decide_eq_false_iff_not] at this
    exact this hc
  · intro r s' h
    obtain ⟨j, hsel, hr, hjobs, _⟩ := dequeue_some_spec s now r s' h
    obtain ⟨hmem, hdue, hmin⟩ := (selectDue_spec now s.jobs).2 j hsel
    obtain ⟨hjp, hjl⟩ := of_decide_eq_true hdue
    refine ⟨j, hmem, hjp, hjl, ?_, hr, ?_, ?_, ?_⟩
    · intro k hk hkp hkl
      exact hmin k hk (by simp [isDue, hkp, hkl])
    · have h1 := find?_id_of_mem s.jobs j hnd hmem
      rw [findJob, hjobs,
        find?_updJob j.id j.id (fun x => { x with status := JobStatus.running })
          (fun _ => rfl), h1]
      simp
    · intro i' hi'
      exact findJob_dequeue_other s now r s' i' h (by rw [hr]; exact fun hc => hi' hc.symm)
    · rw [hjobs, updJob]
      exact List.length_map s.jobs _

/-- `Fail` with retry on the row with id `i`: the Pending/backoff/bump
update of the Go code, seen through `find?`. -/
theorem findJob_fail_true (s : QueueState) (i : Nat) (j : Job) (msg : String)
    (now : Int) (hfind : findJob s i = some j) :
    findJob (fail s i msg true now) i =
      some { j with status := JobStatus.pending, retries := j.retries + 1,
                    nextRunAt := now + 300, error := msg } := by
  have hjid : j.id = i := by simpa using List.find?_some hfind
  show ((updJob i (fun x =>
      { x with status := JobStatus.pending, retries := x.retries + 1,
               nextRunAt := now + 300, error := msg }) s.jobs).find?
      fun x => decide (x.id = i)) = _
  rw [find?_updJob i i (fun x =>
      { x with status := JobStatus.pending, retries := x.retries + 1,
               nextRunAt := now + 300, error := msg }) (fun _ => rfl)]
  rw [findJob] at hfind
  rw [hfind]
  simp [hjid]

/-- `Fail` without retry on the row with id `i`: the terminal Failed
update of the Go code, seen through `find?`. -/
theorem findJob_fail_false (s : QueueState) (i : Nat) (j : Job) (msg : String)
    (now : Int) (hfind : findJob s i = some j) :
    findJob (fail s i msg false now) i =
      some { j with status := JobStatus.failed, error := msg } := by
  have hjid : j.id = i := by simpa using List.find?_some hfind
  show ((updJob i (fun x =>
      { x with status := JobStatus.failed, error := msg }) s.jobs).find?
      fun x => decide (x.id = i)) = _
  rw [find?_updJob i i (fun x =>
      { x with status := JobStatus.failed, error := msg }) (fun _ => rfl)]
  rw [findJob] at hfind
  rw [hfind]
  simp [hjid]

/-- `Fail` leaves every other row untouched. -/
theorem findJob_fail_other (s : QueueState) (i : Nat) (msg : String)
    (retry : Bool) (now : Int) (i' : Nat) (hi' : i' ≠ i) :
    findJob (fail s i msg retry now) i' = findJob s i' := by
  cases retry with
  | true =>
    show ((updJob i (fun x =>
        { x with status := JobStatus.pending, retries := x.retries + 1,
                 nextRunAt := now + 300, error := msg }) s.jobs).find?
        fun x => decide (x.id = i')) = _
    rw [find?_updJob i i' (fun x =>
        { x with status := JobStatus.pending, retries := x.retries + 1,
                 nextRunAt := now + 300, error := msg }) (fun _ => rfl)]
    rw [findJob]
    cases hf : s.jobs.find? (fun x => decide (x.id = i')) with
    | none => rfl
    | some k =>
      have : k.id = i' := by simpa using List.find?_some hf
      simp [this, hi']
  | false =>
    show ((updJob i (fun x =>
        { x with status := JobStatus.failed, error := msg }) s.jobs).find?
        fun x => decide (x.id = i')) = _
    rw [find?_updJob i i' (fun x =>
        { x with status := JobStatus.failed, error := msg }) (fun _ => rfl)]
    rw [findJob]
    cases hf : s.jobs.find? (fun x => decide (x.id = i')) with
    | none => rfl
    | some k =>
      have : k.id = i' := by simpa using List.find?_some hf
      simp [this, hi']

/-- After a `Fail` without retry, the row is never claimed by any future
sequence of `Dequeue` transactions. -/
theorem fail_false_never_claimed (s : QueueState) (i : Nat) (j : Job)
    (msg : String) (now : Int) (hnd : (s.jobs.map Job.id).Nodup)
    (hfind : findJob s i = some j) (ts : List Int) :
    ((dequeueSeq (fail s i msg false now) ts).1.countP (claimedBy i)) = 0 := by
  refine dequeueSeq_no_claim i { j with status := JobStatus.failed, error := msg }
    ts (fail s i msg false now) ?_
    (findJob_fail_false s i j msg now hfind) (by intro hc; cases hc)
  rw [fail_map_id]
  exact hnd

/-- C4.  Fail contract: `Fail(id, msg, retry := true)` turns the row back
to Pending with `retries` incremented, `nextRunAt` pushed to the failure
time plus the fixed 5-minute (300-second) backoff and `msg` recorded;
`Fail(id, msg, retry := false)` turns the row to the terminal Failed
status with `msg` recorded (leaving `retries` and `nextRunAt` alone);
both touch no other row; and a Failed row is excluded from every future
sequence of `Dequeue` transactions. -/
theorem fail_contract (s : QueueState) (i : Nat) (j : Job) (msg : String)
    (now : Int) (hnd : (s.jobs.map Job.id).Nodup)
    (hfind : findJob s i = some j) :
    findJob (fail s i msg true now) i =
      some { j with status := JobStatus.pending, retries := j.retries + 1,
                    nextRunAt := now + 300, error := msg } ∧
    findJob (fail s i msg false now) i =
      some { j with status := JobStatus.failed, error := msg } ∧
    (∀ (retry : Bool) (i' : Nat), i' ≠ i →
      findJob (fail s i msg retry now) i' = findJob s i') ∧
    (∀ ts, ((dequeueSeq (fail s i msg false now) ts).1.countP (claimedBy i)) = 0) :=
  ⟨findJob_fail_true s i j msg now hfind,
   findJob_fail_false s i j msg now hfind,
   fun retry i' hi' => findJob_fail_other s i msg retry now i' hi',
   fun ts => fail_false_never_claimed s i j msg now hnd hfind ts⟩

/-- C7.  Backoff monotonicity: a job claimed by `Dequeue` at `tClaim`
(so its old `nextRunAt` is at most `tClaim`) and failed with retry at
`tFail ≥ tClaim` gets the new `nextRunAt = tFail + 300` (failure time
plus the fixed backoff), which is strictly greater than both the old
`nextRunAt` and the failure time. -/
theorem backoff_monotone (s : QueueState) (tClaim tFail : Int) (r : Job)
    (s' : QueueState) (msg : String)
    (hnd : (s.jobs.map Job.id).Nodup)
    (hq : dequeue s tClaim = (some r, s'))
    (hle : tClaim ≤ tFail) :
    ∃ j', findJob (fail s' r.id msg true tFail) r.id = some j' ∧
      j'.nextRunAt = tFail + 300 ∧
      r.nextRunAt < j'.nextRunAt ∧ tFail < j'.nextRunAt := by
  obtain ⟨j, hsel, hr, hjobs, _⟩ := dequeue_some_spec s tClaim r s' hq
  obtain ⟨hmem, hdue, _⟩ := (selectDue_spec tClaim s.jobs).2 j hsel
  obtain ⟨hjp, hjl⟩ := of_decide_eq_true hdue
  have hnd' : (s'.jobs.map Job.id).Nodup := by
    rw [hjobs,
      updJob_map_id j.id (fun x => { x with status := JobStatus.running })
        (fun _ => rfl)]
    exact hnd
  have hfind' : findJob s' j.id = some { j with status := JobStatus.running } := by
    have h1 := find?_id_of_mem s.jobs j hnd hmem
    rw [findJob, hjobs,
      find?_updJob j.id j.id (fun x => { x with status := JobStatus.running })
        (fun _ => rfl), h1]
    simp
  have hrid : r.id = j.id := by rw [hr]
  have ht := findJob_fail_true s' j.id
    { j with status := JobStatus.running } msg tFail hfind'
  refine ⟨{ j with status := JobStatus.pending, retries := j.retries + 1, nextRunAt := tFail + 300, error := msg }, ?_, rfl, ?_, ?_⟩
  · rw [hrid]
    exact ht
  · have hrn : r.nextRunAt = j.nextRunAt := by rw [hr]
    rw [hrn]
    show j.nextRunAt < tFail + 300
    omega
  · show tFail < tFail + 300
    omega

/-- One failing worker tick on a one-job queue, while retries remain
(`retries < 3`): `Dequeue` claims the job and `Fail` with retry puts it
back Pending with `retries` bumped and `nextRunAt = t + 300`. -/
theorem failCycle_singleton_retry (j : Job) (m : String) (t : Int) (ni : Nat)
    (hs : j.status = JobStatus.pending) (hd : j.nextRunAt ≤ t)
    (hr : j.retries < 3) :
    failCycle ⟨[j], ni⟩ m t =
      ⟨[{ j with status := JobStatus.pending, retries := j.retries + 1, nextRunAt := t + 300, error := m }], ni⟩ := by
  have hsel : selectDue t [j] = some j := by
    simp [selectDue, isDue, hs, hd]
  have hdq : dequeue ⟨[j], ni⟩ t =
      (some { j with status := JobStatus.running },
       ⟨[{ j with status := JobStatus.running }], ni⟩) := by
    unfold dequeue
    simp [hsel, updJob]
  unfold failCycle
  rw [hdq]
  show fail ⟨[{ j with status := JobStatus.running }], ni⟩ j.id m
      (decide (j.retries < 3)) t = _
  rw [decide_eq_true hr]
  show QueueState.mk (updJob j.id (fun x =>
      { x with status := JobStatus.pending, retries := x.retries + 1,
               nextRunAt := t + 300, error := m })
      [{ j with status := JobStatus.running }]) ni = _
  simp [updJob]

/-- One failing worker tick on a one-job queue with retries exhausted
(`retries ≥ 3`): `Dequeue` claims the job and `Fail` without retry turns
it to the terminal Failed status. -/
theorem failCycle_singleton_exhausted (j : Job) (m : String) (t : Int) (ni : Nat)
    (hs : j.status = JobStatus.pending) (hd : j.nextRunAt ≤ t)
    (hr : ¬ j.retries < 3) :
    failCycle ⟨[j], ni⟩ m t =
      ⟨[{ j with status := JobStatus.failed, error := m }], ni⟩ := by
  have hsel : selectDue t [j] = some j := by
    simp [selectDue, isDue, hs, hd]
  have hdq : dequeue ⟨[j], ni⟩ t =
      (some { j with status := JobStatus.running },
       ⟨[{ j with status := JobStatus.running }], ni⟩) := by
    unfold dequeue
    simp [hsel, updJob]
  unfold failCycle
  rw [hdq]
  show fail ⟨[{ j with status := JobStatus.running }], ni⟩ j.id m
      (decide (j.retries < 3)) t = _
  rw [decide_eq_false hr]
  show QueueState.mk (updJob j.id (fun x =>
      { x with status := JobStatus.failed, error := m })
      [{ j with status := JobStatus.running }]) ni = _
  simp [updJob]

/-- C2.  Bounded retry: a freshly enqueued job (`retries = 0`) whose
dispatched operation fails on every tick — the Worker passing
`retry := retries < 3` to `Fail` — is retried exactly 3 times: after
three failing ticks it is Pending with `retries = 3`, the fourth failing
tick turns it to the terminal Failed status, and afterwards no sequence
of `Dequeue` transactions at any times ever returns it. -/
theorem bounded_retry (j : Job) (ni : Nat) (m1 m2 m3 m4 : String)
    (t1 t2 t3 t4 : Int)
    (hs : j.status = JobStatus.pending) (hr : j.retries = 0)
    (h1 : j.nextRunAt ≤ t1) (h2 : t1 + 300 ≤ t2) (h3 : t2 + 300 ≤ t3)
    (h4 : t3 + 300 ≤ t4) :
    failCycle (failCycle (failCycle ⟨[j], ni⟩ m1 t1) m2 t2) m3 t3 =
      ⟨[{ j with status := JobStatus.pending, retries := 3, nextRunAt := t3 + 300, error := m3 }], ni⟩ ∧
    failCycle (failCycle (failCycle (failCycle ⟨[j], ni⟩ m1 t1) m2 t2) m3 t3) m4 t4 =
      ⟨[{ j with status := JobStatus.failed, retries := 3, nextRunAt := t3 + 300, error := m4 }], ni⟩ ∧
    ∀ ts, ((dequeueSeq
        (failCycle (failCycle (failCycle (failCycle ⟨[j], ni⟩ m1 t1) m2 t2) m3 t3) m4 t4)
        ts).1.countP (claimedBy j.id)) = 0 := by
  have e1 : failCycle ⟨[j], ni⟩ m1 t1 =
      ⟨[{ j with status := JobStatus.pending, retries := 1, nextRunAt := t1 + 300, error := m1 }], ni⟩ := by
    have := failCycle_singleton_retry j m1 t1 ni hs h1 (by omega)
    rw [this, hr]
  have e2 : failCycle (failCycle ⟨[j], ni⟩ m1 t1) m2 t2 =
      ⟨[{ j with status := JobStatus.pending, retries := 2, nextRunAt := t2 + 300, error := m2 }], ni⟩ := by
    rw [e1]
    exact failCycle_singleton_retry _ m2 t2 ni rfl (by simpa using h2) (by simp)
  have e3 : failCycle (failCycle (failCycle ⟨[j], ni⟩ m1 t1) m2 t2) m3 t3 =
      ⟨[{ j with status := JobStatus.pending, retries := 3, nextRunAt := t3 + 300, error := m3 }], ni⟩ := by
    rw [e2]
    exact failCycle_singleton_retry _ m3 t3 ni rfl (by simpa using h3) (by simp)
  have e4 : failCycle (failCycle (failCycle (failCycle ⟨[j], ni⟩ m1 t1) m2 t2) m3 t3) m4 t4 =
      ⟨[{ j with status := JobStatus.failed, retries := 3, nextRunAt := t3 + 300, error := m4 }], ni⟩ := by
    rw [e3]
    exact failCycle_singleton_exhausted _ m4 t4 ni rfl (by simpa using h4) (by simp)
  refine ⟨e3, e4, fun ts => ?_⟩
  rw [e4]
  refine dequeueSeq_no_claim j.id
    { j with status := JobStatus.failed, retries := 3, nextRunAt := t3 + 300, error := m4 }
    ts _ (by simp) ?_ (by intro hc; cases hc)
  simp [findJob]

/-- C9.  Construction failure is permanent: when the per-tenant agent
factory fails, `Worker.Process` calls `Fail(id, err, retry := false)` —
the job becomes terminally Failed with its `retries` count untouched
(regardless of its value), the dispatched operation is never invoked
(the dispatch flag is `false`), every other row is untouched, and the
job is never again claimed by any sequence of `Dequeue` transactions. -/
theorem construction_failure_permanent (s : QueueState) (job : Job)
    (e : String) (opErr : Option String) (now : Int) (j₀ : Job)
    (hnd : (s.jobs.map Job.id).Nodup)
    (hfind : findJob s job.id = some j₀) :
    (processJob s job (some e) opErr now).2 = false ∧
    findJob (processJob s job (some e) opErr now).1 job.id =
      some { j₀ with status := JobStatus.failed, error := e } ∧
    (∀ i', i' ≠ job.id →
      findJob (processJob s job (some e) opErr now).1 i' = findJob s i') ∧
    (∀ ts, ((dequeueSeq (processJob s job (some e) opErr now).1 ts).1.countP
      (claimedBy job.id)) = 0) :=
  ⟨rfl,
   findJob_fail_false s job.id j₀ e now hfind,
   fun i' hi' => findJob_fail_other s job.id e false now i' hi',
   fun ts => fail_false_never_claimed s job.id j₀ e now hnd hfind ts⟩

/-- `HasPendingJob(brandID)` holds exactly when some job of that brand is
Pending or Running. -/
theorem hasPendingJob_iff (q : QueueState) (b : String) :
    hasPendingJob q b = true ↔
      ∃ j ∈ q.jobs, j.brandID = b ∧
        (j.status = JobStatus.pending ∨ j.status = JobStatus.running) := by
  simp [hasPendingJob, List.any_eq_true]

/-- C5.  Scheduler idempotence: starting from a state with no
outstanding (Pending or Running) job for the tenant, the first
`EnsureScheduled` enqueues exactly one job — a Pending Cycle (`run`) job
for the tenant — after which `HasPendingJob` holds, so an immediately
following `EnsureScheduled` call (at any time) is a no-op; and
`HasPendingJob` holds iff some job of the tenant is Pending or
Running. -/
theorem ensureScheduled_idempotent (s : SchedState) (b : String)
    (h now now' : Int) (hnp : hasPendingJob s.queue b = false) :
    (∃ nj : Job, (ensureScheduled s b h now).queue.jobs = s.queue.jobs ++ [nj] ∧
      nj.brandID = b ∧ nj.type = JobType.run ∧ nj.status = JobStatus.pending) ∧
    (ensureScheduled s b h now).queue.jobs.length = s.queue.jobs.length + 1 ∧
    hasPendingJob (ensureScheduled s b h now).queue b = true ∧
    ensureScheduled (ensureScheduled s b h now) b h now' = ensureScheduled s b h now ∧
    (∀ (q : QueueState) (b' : String), hasPendingJob q b' = true ↔
      ∃ j ∈ q.jobs, j.brandID = b' ∧
        (j.status = JobStatus.pending ∨ j.status = JobStatus.running)) := by
  have h1 : ensureScheduled s b h now =
      { s with queue := enqueue s.queue b JobType.run (computeDelay s.store b h now) "" now } := by
    unfold ensureScheduled
    simp [hnp]
  have hjobs : (ensureScheduled s b h now).queue.jobs =
      s.queue.jobs ++
        [{ id := s.queue.nextId, brandID := b, type := JobType.run,
           status := JobStatus.pending, retries := 0,
           nextRunAt := now + computeDelay s.store b h now,
           payload := "", error := "" }] := by
    rw [h1]
    rfl
  have hhas : hasPendingJob (ensureScheduled s b h now).queue b = true := by
    apply (hasPendingJob_iff _ b).mpr
    refine ⟨{ id := s.queue.nextId, brandID := b, type := JobType.run, status := JobStatus.pending, retries := 0, nextRunAt := now + computeDelay s.store b h now, payload := "", error := "" }, ?_, rfl, Or.inl rfl⟩
    rw [hjobs]
    exact List.mem_append_right _ (List.mem_singleton.mpr rfl)
  refine ⟨⟨_, hjobs, rfl, rfl, rfl⟩, ?_, hhas, ?_, hasPendingJob_iff⟩
  · rw [hjobs]
    simp
  · rw [ensureScheduled, if_pos hhas]

/-! ## The history ordering of `GetHistory` -/

/-- Membership through one descending insertion. -/
theorem mem_insertByCreatedDesc (p q : Post) (l : List Post) :
    q ∈ insertByCreatedDesc p l ↔ q = p ∨ q ∈ l := by
  induction l with
  | nil => simp [insertByCreatedDesc]
  | cons a tl ih =>
    by_cases hc : a.createdAt ≤ p.createdAt
    · rw [insertByCreatedDesc, if_pos hc]
      simp [List.mem_cons]
    · rw [insertByCreatedDesc, if_neg hc]
      simp only [List.mem_cons, ih]
      tauto

/-- The descending sort keeps exactly the members. -/
theorem mem_sortByCreatedDesc (q : Post) (l : List Post) :
    q ∈ sortByCreatedDesc l ↔ q ∈ l := by
  induction l with
  | nil => simp [sortByCreatedDesc]
  | cons a tl ih =>
    rw [sortByCreatedDesc, mem_insertByCreatedDesc]
    simp [List.mem_cons, ih]

/-- The head of the descending sort dominates every element of the
sorted list. -/
theorem sortByCreatedDesc_head_dom (l : List Post) :
    ∀ p ps, sortByCreatedDesc l = p :: ps →
      ∀ q ∈ sortByCreatedDesc l, q.createdAt ≤ p.createdAt := by
  induction l with
  | nil => intro p ps hcontra; simp [sortByCreatedDesc] at hcontra
  | cons a tl ih =>
    intro p ps hp q hq
    rw [sortByCreatedDesc] at hp hq
    cases hsort : sortByCreatedDesc tl with
    | nil =>
      rw [hsort] at hp hq
      rw [insertByCreatedDesc] at hp hq
      rw [List.cons.injEq] at hp
      rcases List.mem_singleton.mp hq with rfl
      rw [hp.1]
    | cons b rest =>
      rw [hsort] at hp hq
      by_cases hc : b.createdAt ≤ a.createdAt
      · rw [insertByCreatedDesc, if_pos hc] at hp hq
        rw [List.cons.injEq] at hp
        rcases List.mem_cons.mp hq with rfl | hq'
        · rw [hp.1]
        · rw [← hp.1]
          have := ih b rest hsort q (by rw [hsort]; exact hq')
          omega
      · rw [insertByCreatedDesc, if_neg hc] at hp hq
        rw [List.cons.injEq] at hp
        rcases List.mem_cons.mp hq with rfl | hq'
        · rw [hp.1]
        · rw [← hp.1]
          rcases (mem_insertByCreatedDesc a q rest).mp hq' with rfl | hq''
          · omega
          · have := ih b rest hsort q (by rw [hsort]; exact List.mem_cons_of_mem b hq'')
            omega

/-- The descending sort of a nonempty list is nonempty. -/
theorem sortByCreatedDesc_ne_nil (a : Post) (l : List Post) (h : a ∈ l) :
    sortByCreatedDesc l ≠ [] := by
  intro hc
  have := (mem_sortByCreatedDesc a l).mpr h
  rw [hc] at this
  cases this

/-- The head of `GetHistory` is a post of the brand with the greatest
`created_at` — the most recent post. -/
theorem getHistory_head_max (st : StoreState) (b : String) (p : Post)
    (ps : List Post) (h : getHistory st b = p :: ps) :
    ∀ q ∈ st.posts.filter (fun x => decide (x.brandID = b)),
      q.createdAt ≤ p.createdAt := by
  intro q hq
  exact sortByCreatedDesc_head_dom _ p ps h q
    ((mem_sortByCreatedDesc q _).mpr hq)

/-- C8.  EnsureScheduled delay computation: with no prior history for
the tenant the delay is the fixed 1-minute (60-second) warm-up; with
history the delay is (timestamp of the most recent post, i.e. the head
of the `created_at DESC` history, which dominates every post of the
brand) plus `intervalHours` hours minus `now`, clamped to the 10-second
catch-up delay when that difference is negative; and when no job is
outstanding, `EnsureScheduled` enqueues exactly one Cycle (`run`) job
whose `nextRunAt` is `now` plus that delay. -/
theorem ensureScheduled_delay (s : SchedState) (b : String) (h now : Int)
    (hnp : hasPendingJob s.queue b = false) :
    ((s.store.posts.filter fun x => decide (x.brandID = b)) = [] →
      computeDelay s.store b h now = 60) ∧
    (∀ p ps, getHistory s.store b = p :: ps →
      (∀ q ∈ s.store.posts.filter fun x => decide (x.brandID = b),
        q.createdAt ≤ p.createdAt) ∧
      computeDelay s.store b h now =
        (if p.createdAt + (if h ≤ 0 then 4 else h) * 3600 - now < 0 then 10
         else p.createdAt + (if h ≤ 0 then 4 else h) * 3600 - now)) ∧
    (∃ nj : Job, (ensureScheduled s b h now).queue.jobs = s.queue.jobs ++ [nj] ∧
      nj.type = JobType.run ∧ nj.brandID = b ∧ nj.status = JobStatus.pending ∧
      nj.nextRunAt = now + computeDelay s.store b h now) := by
  refine ⟨?_, ?_, ?_⟩
  · intro hfil
    rw [computeDelay]
    rw [show getHistory s.store b = [] from by rw [getHistory, hfil]; rfl]
  · intro p ps hh
    refine ⟨getHistory_head_max s.store b p ps hh, ?_⟩
    rw [computeDelay, hh]
  · refine ⟨{ id := s.queue.nextId, brandID := b, type := JobType.run, status := JobStatus.pending, retries := 0, nextRunAt := now + computeDelay s.store b h now, payload := "", error := "" }, ?_, rfl, rfl, rfl, rfl⟩
    rw [ensureScheduled, if_neg]
    · rfl
    · rw [hnp]
      simp

/-! ## Scheduled-posts lemmas -/

/-- A keyed row update preserves the list of keys. -/
theorem map_key_map_upd {α κ : Type} [DecidableEq κ] (key : α → κ) (f : α → α)
    (hf : ∀ a, key (f a) = key a) (i : κ) (l : List α) :
    ((l.map fun a => if key a = i then f a else a).map key) = l.map key := by
  induction l with
  | nil => rfl
  | cons a tl ih =>
    by_cases hc : key a = i <;> simp [hc, hf, ih]

/-- Status lookup after `UpdateScheduledPostStatus`. -/
theorem statusOf_update (st : StoreState) (x y : String) (stat : PostStatus) :
    statusOf (updateScheduledPostStatus st y stat) x =
      (statusOf st x).map (fun s0 => if x = y then stat else s0) := by
  unfold statusOf updateScheduledPostStatus
  rw [find?_map_upd ScheduledPost.id (fun p => { p with status := stat })
    (fun _ => rfl) y x]
  cases hf : st.scheduledPosts.find? (fun p => decide (p.id = x)) with
  | none => rfl
  | some p =>
    have hpx : p.id = x := by simpa using List.find?_some hf
    by_cases hxy : x = y
    · simp [hpx, hxy]
    · have : ¬ p.id = y := by rw [hpx]; exact hxy
      simp [this, hxy]

/-- A post that exists has a status. -/
theorem statusOf_isSome_of_mem (st : StoreState) (p : ScheduledPost)
    (hmem : p ∈ st.scheduledPosts) : ∃ s0, statusOf st p.id = some s0 := by
  rw [statusOf]
  cases hf : st.scheduledPosts.find? (fun q => decide (q.id = p.id)) with
  | some q => exact ⟨q.status, rfl⟩
  | none =>
    exfalso
    have := List.find?_eq_none.mp hf p hmem
    simp at this

/-- One `publishStep` keeps a Scheduled post Scheduled. -/
theorem publishStep_keeps_scheduled (e : String → Bool) (now : Int)
    (acc : SchedState) (p : ScheduledPost) (x : String)
    (h : statusOf acc.store x = some PostStatus.scheduled) :
    statusOf (publishStep e now acc p).store x = some PostStatus.scheduled := by
  show statusOf (updateScheduledPostStatus acc.store p.id PostStatus.scheduled) x = _
  rw [statusOf_update, h]
  by_cases hxy : x = p.id <;> simp [hxy]

/-- The whole loop of `CheckScheduledPosts` keeps a Scheduled post
Scheduled. -/
theorem foldl_keeps_scheduled (e : String → Bool) (now : Int)
    (ps : List ScheduledPost) :
    ∀ (acc : SchedState) (x : String),
      statusOf acc.store x = some PostStatus.scheduled →
      statusOf ((ps.foldl (publishStep e now) acc)).store x =
        some PostStatus.scheduled := by
  induction ps with
  | nil => intro acc x h; simpa using h
  | cons p ps ih =>
    intro acc x h
    rw [List.foldl_cons]
    exact ih _ x (publishStep_keeps_scheduled e now acc p x h)

/-- The loop of `CheckScheduledPosts` flips every fetched post to
Scheduled. -/
theorem foldl_sets_scheduled (e : String → Bool) (now : Int)
    (ps : List ScheduledPost) :
    ∀ (acc : SchedState) (x : String),
      (∃ p ∈ ps, p.id = x) → (∃ s0, statusOf acc.store x = some s0) →
      statusOf ((ps.foldl (publishStep e now) acc)).store x =
        some PostStatus.scheduled := by
  induction ps with
  | nil =>
    intro acc x hmem _
    obtain ⟨p, hp, _⟩ := hmem
    cases hp
  | cons p ps ih =>
    intro acc x hmem hsome
    obtain ⟨s0, hs0⟩ := hsome
    rw [List.foldl_cons]
    obtain ⟨p', hp', hid⟩ := hmem
    rcases List.mem_cons.mp hp' with rfl | htail
    · have hstep : statusOf (publishStep e now acc p').store x =
          some PostStatus.scheduled := by
        show statusOf (updateScheduledPostStatus acc.store p'.id
          PostStatus.scheduled) x = _
        rw [statusOf_update, hs0]
        simp [hid.symm]
      exact foldl_keeps_scheduled e now ps _ x hstep
    · have hsome' : ∃ s1, statusOf (publishStep e now acc p).store x = some s1 := by
        show ∃ s1, statusOf (updateScheduledPostStatus acc.store p.id
          PostStatus.scheduled) x = some s1
        rw [statusOf_update, hs0]
        exact ⟨_, rfl⟩
      exact ih _ x ⟨p', htail, hid⟩ hsome'

/-- With every `Enqueue` succeeding, the loop of `CheckScheduledPosts`
adds exactly one Publish job per fetched post carrying that post's id. -/
theorem foldl_publish_count (now : Int) (x : String) (ps : List ScheduledPost) :
    ∀ (acc : SchedState),
      publishCount ((ps.foldl (publishStep (fun _ => true) now) acc)).queue x =
        publishCount acc.queue x + ps.countP (fun p => decide (p.id = x)) := by
  induction ps with
  | nil => intro acc; simp
  | cons p ps ih =>
    intro acc
    rw [List.foldl_cons, ih, List.countP_cons]
    have hstep : publishCount (publishStep (fun _ => true) now acc p).queue x =
        publishCount acc.queue x + (if p.id = x then 1 else 0) := by
      show publishCount (enqueue acc.queue p.brandID JobType.publish 0 p.id now) x = _
      unfold publishCount enqueue
      rw [List.countP_append]
      by_cases hc : p.id = x <;> simp [List.countP_cons, hc]
    rw [hstep]
    by_cases hc : p.id = x
    · simp [hc]
      omega
    · simp [hc]

/-- With every `Enqueue` failing, the loop of `CheckScheduledPosts`
leaves the queue untouched. -/
theorem foldl_queue_unchanged (now : Int) (ps : List ScheduledPost) :
    ∀ (acc : SchedState),
      ((ps.foldl (publishStep (fun _ => false) now) acc)).queue = acc.queue := by
  induction ps with
  | nil => intro acc; rfl
  | cons p ps ih =>
    intro acc
    rw [List.foldl_cons, ih]
    rfl

/-- The loop of `CheckScheduledPosts` preserves the list of post ids. -/
theorem foldl_store_ids (e : String → Bool) (now : Int) (ps : List ScheduledPost) :
    ∀ (acc : SchedState),
      (((ps.foldl (publishStep e now) acc)).store.scheduledPosts.map
        ScheduledPost.id) = acc.store.scheduledPosts.map ScheduledPost.id := by
  induction ps with
  | nil => intro acc; rfl
  | cons p ps ih =>
    intro acc
    rw [List.foldl_cons, ih]
    show ((acc.store.scheduledPosts.map fun q =>
      if q.id = p.id then { q with status := PostStatus.scheduled } else q).map
        ScheduledPost.id) = _
    exact map_key_map_upd ScheduledPost.id
      (fun q => { q with status := PostStatus.scheduled }) (fun _ => rfl) p.id _

/-- A Scheduled post is never fetched by `GetPendingScheduledPosts`,
which fetches only Approved posts. -/
theorem not_matched_of_scheduled (st : StoreState) (x : String)
    (hnd : (st.scheduledPosts.map ScheduledPost.id).Nodup)
    (h : statusOf st x = some PostStatus.scheduled) (now' : Int) :
    x ∉ (getPendingScheduledPosts st now').map ScheduledPost.id := by
  intro hmem
  obtain ⟨q, hq, hqid⟩ := List.mem_map.mp hmem
  have hq' := List.mem_filter.mp hq
  obtain ⟨hqa, _⟩ := of_decide_eq_true hq'.2
  have hf := find?_eq_some_of_nodup ScheduledPost.id st.scheduledPosts q hnd hq'.1
  rw [hqid] at hf
  rw [statusOf, hf] at h
  simp at h
  rw [hqa] at h
  cases h

/-- Iterated passes of `CheckScheduledPosts` keep a Scheduled post
Scheduled and preserve the list of post ids. -/
theorem applyPasses_keeps_scheduled (x : String) (ts : List Int) :
    ∀ (s : SchedState), statusOf s.store x = some PostStatus.scheduled →
      statusOf (applyPasses s ts).store x = some PostStatus.scheduled ∧
      ((applyPasses s ts).store.scheduledPosts.map ScheduledPost.id) =
        s.store.scheduledPosts.map ScheduledPost.id := by
  induction ts with
  | nil => intro s h; exact ⟨h, rfl⟩
  | cons t ts ih =>
    intro s h
    rw [applyPasses, List.foldl_cons]
    have h1 : statusOf (checkScheduledPosts s t).store x =
        some PostStatus.scheduled :=
      foldl_keeps_scheduled (fun _ => true) t _ s x h
    have h2 := foldl_store_ids (fun _ => true) t
      (getPendingScheduledPosts s.store t) s
    obtain ⟨ha, hb⟩ := ih (checkScheduledPosts s t) h1
    exact ⟨ha, by rw [applyPasses] at hb; rw [hb]; exact h2⟩

/-- C6.  Publish de-duplication: an Approved, due ScheduledPost matched
by `CheckScheduledPosts` has exactly one Publish job with its id as
payload enqueued, is flipped to Scheduled, and — because only Approved
posts are fetched and the scheduler only ever writes the Scheduled
status — is never matched again by any later pass, at any time, even
before the Publish job is processed. -/
theorem publish_dedup (s : SchedState) (p : ScheduledPost) (now : Int)
    (hnd : (s.store.scheduledPosts.map ScheduledPost.id).Nodup)
    (hmem : p ∈ s.store.scheduledPosts)
    (hap : p.status = PostStatus.approved)
    (hdue : p.scheduledAt ≤ now) :
    statusOf (checkScheduledPosts s now).store p.id = some PostStatus.scheduled ∧
    publishCount (checkScheduledPosts s now).queue p.id =
      publishCount s.queue p.id + 1 ∧
    (∀ (ts : List Int) (now' : Int), p.id ∉
      ((getPendingScheduledPosts (applyPasses (checkScheduledPosts s now) ts).store
        now').map ScheduledPost.id)) := by
  have hdl : p ∈ getPendingScheduledPosts s.store now :=
    List.mem_filter.mpr ⟨hmem, by simp [hap, hdue]⟩
  have hsome := statusOf_isSome_of_mem s.store p hmem
  have h1 : statusOf (checkScheduledPosts s now).store p.id =
      some PostStatus.scheduled :=
    foldl_sets_scheduled (fun _ => true) now _ s p.id ⟨p, hdl, rfl⟩ hsome
  refine ⟨h1, ?_, ?_⟩
  · have hcnt : (getPendingScheduledPosts s.store now).countP
        (fun q => decide (q.id = p.id)) = 1 := by
      apply countP_key_eq_one ScheduledPost.id _ p ?_ hdl
      exact List.Nodup.sublist
        (List.Sublist.map ScheduledPost.id (List.filter_sublist _)) hnd
    have h2 := foldl_publish_count now p.id
      (getPendingScheduledPosts s.store now) s
    rw [hcnt] at h2
    exact h2
  · intro ts now'
    obtain ⟨hsched, hids⟩ := applyPasses_keeps_scheduled p.id ts
      (checkScheduledPosts s now) h1
    apply not_matched_of_scheduled _ _ ?_ hsched now'
    rw [hids]
    rw [show (checkScheduledPosts s now).store.scheduledPosts.map ScheduledPost.id
      = s.store.scheduledPosts.map ScheduledPost.id from
      foldl_store_ids (fun _ => true) now (getPendingScheduledPosts s.store now) s]
    exact hnd

/-- C10.  `CheckScheduledPosts` ignores the result of `Enqueue`: whatever
the outcome of each `Enqueue` call, every Approved, due ScheduledPost is
flipped to Scheduled; in particular when every `Enqueue` call errors the
queue is left completely unchanged, so the post reaches Scheduled with no
Publish job for it ever placed in the queue. -/
theorem checkScheduledPosts_ignores_enqueue_result (s : SchedState)
    (p : ScheduledPost) (now : Int)
    (hmem : p ∈ s.store.scheduledPosts)
    (hap : p.status = PostStatus.approved)
    (hdue : p.scheduledAt ≤ now) :
    (∀ enqOk : String → Bool,
      statusOf (checkScheduledPostsWith enqOk s now).store p.id =
        some PostStatus.scheduled) ∧
    (checkScheduledPostsWith (fun _ => false) s now).queue = s.queue := by
  have hdl : p ∈ getPendingScheduledPosts s.store now :=
    List.mem_filter.mpr ⟨hmem, by simp [hap, hdue]⟩
  have hsome := statusOf_isSome_of_mem s.store p hmem
  refine ⟨fun enqOk => ?_, ?_⟩
  · exact foldl_sets_scheduled enqOk now _ s p.id ⟨p, hdl, rfl⟩ hsome
  · exact foldl_queue_unchanged now (getPendingScheduledPosts s.store now) s

/-! ## Witnesses: each claim theorem evaluated at a concrete input -/

/-- Witness for C1: one Pending job with id 1 due at time 0, two
concurrent callers. -/
theorem dequeue_at_most_one_claim_witness :
    ((dequeueSeq ⟨[⟨1, "b", JobType.run, JobStatus.pending, 0, 0, "", ""⟩], 2⟩
      (List.replicate 2 0)).1.countP (claimedBy 1) ≤ 1) ∧
    (dueCount ⟨[⟨1, "b", JobType.run, JobStatus.pending, 0, 0, "", ""⟩], 2⟩ 0 ≤ 2 →
      ((dequeueSeq ⟨[⟨1, "b", JobType.run, JobStatus.pending, 0, 0, "", ""⟩], 2⟩
        (List.replicate 2 0)).1.countP (claimedBy 1) = 1) ∧
      (some ⟨1, "b", JobType.run, JobStatus.running, 0, 0, "", ""⟩) ∈
        (dequeueSeq ⟨[⟨1, "b", JobType.run, JobStatus.pending, 0, 0, "", ""⟩], 2⟩
          (List.replicate 2 0)).1) :=
  dequeue_at_most_one_claim
    ⟨[⟨1, "b", JobType.run, JobStatus.pending, 0, 0, "", ""⟩], 2⟩ 1
    ⟨1, "b", JobType.run, JobStatus.pending, 0, 0, "", ""⟩ 0 2
    (by decide) rfl rfl (by decide)

/-- Witness for C2: job with id 1 failing at times 0, 300, 600, 900. -/
theorem bounded_retry_witness :
    failCycle (failCycle (failCycle
        ⟨[⟨1, "b", JobType.run, JobStatus.pending, 0, 0, "", ""⟩], 2⟩ "e1" 0)
        "e2" 300) "e3" 600 =
      ⟨[⟨1, "b", JobType.run, JobStatus.pending, 3, 900, "", "e3"⟩], 2⟩ ∧
    failCycle (failCycle (failCycle (failCycle
        ⟨[⟨1, "b", JobType.run, JobStatus.pending, 0, 0, "", ""⟩], 2⟩ "e1" 0)
        "e2" 300) "e3" 600) "e4" 900 =
      ⟨[⟨1, "b", JobType.run, JobStatus.failed, 3, 900, "", "e4"⟩], 2⟩ ∧
    ∀ ts, ((dequeueSeq (failCycle (failCycle (failCycle (failCycle
        ⟨[⟨1, "b", JobType.run, JobStatus.pending, 0, 0, "", ""⟩], 2⟩ "e1" 0)
        "e2" 300) "e3" 600) "e4" 900) ts).1.countP (claimedBy 1)) = 0 :=
  bounded_retry ⟨1, "b", JobType.run, JobStatus.pending, 0, 0, "", ""⟩ 2
    "e1" "e2" "e3" "e4" 0 300 600 900 rfl rfl
    (by decide) (by decide) (by decide) (by decide)

/-- Witness for C3: a queue holding one due Pending job with id 1. -/
theorem dequeue_contract_witness :
    (∀ s', dequeue ⟨[⟨1, "b", JobType.run, JobStatus.pending, 0, 0, "", ""⟩], 2⟩ 0 =
        (none, s') →
      s' = ⟨[⟨1, "b", JobType.run, JobStatus.pending, 0, 0, "", ""⟩], 2⟩ ∧
      ∀ k ∈ (⟨[⟨1, "b", JobType.run, JobStatus.pending, 0, 0, "", ""⟩], 2⟩ :
          QueueState).jobs,
        ¬(k.status = JobStatus.pending ∧ k.nextRunAt ≤ 0)) ∧
    (∀ r s', dequeue ⟨[⟨1, "b", JobType.run, JobStatus.pending, 0, 0, "", ""⟩], 2⟩ 0 =
        (some r, s') →
      ∃ j ∈ (⟨[⟨1, "b", JobType.run, JobStatus.pending, 0, 0, "", ""⟩], 2⟩ :
          QueueState).jobs,
        j.status = JobStatus.pending ∧ j.nextRunAt ≤ 0 ∧
        (∀ k ∈ (⟨[⟨1, "b", JobType.run, JobStatus.pending, 0, 0, "", ""⟩], 2⟩ :
            QueueState).jobs,
          k.status = JobStatus.pending → k.nextRunAt ≤ 0 →
          j.nextRunAt ≤ k.nextRunAt) ∧
        r = { j with status := JobStatus.running } ∧
        findJob s' j.id = some { j with status := JobStatus.running } ∧
        (∀ i', i' ≠ j.id → findJob s' i' =
          findJob ⟨[⟨1, "b", JobType.run, JobStatus.pending, 0, 0, "", ""⟩], 2⟩ i') ∧
        s'.jobs.length =
          (⟨[⟨1, "b", JobType.run, JobStatus.pending, 0, 0, "", ""⟩], 2⟩ :
            QueueState).jobs.length) :=
  dequeue_contract ⟨[⟨1, "b", JobType.run, JobStatus.pending, 0, 0, "", ""⟩], 2⟩ 0
    (by decide)

/-- Witness for C4: failing the job with id 1 at time 5. -/
theorem fail_contract_witness :
    findJob (fail ⟨[⟨1, "b", JobType.run, JobStatus.running, 0, 0, "", ""⟩], 2⟩
        1 "boom" true 5) 1 =
      some ⟨1, "b", JobType.run, JobStatus.pending, 1, 305, "", "boom"⟩ ∧
    findJob (fail ⟨[⟨1, "b", JobType.run, JobStatus.running, 0, 0, "", ""⟩], 2⟩
        1 "boom" false 5) 1 =
      some ⟨1, "b", JobType.run, JobStatus.failed, 0, 0, "", "boom"⟩ ∧
    (∀ (retry : Bool) (i' : Nat), i' ≠ 1 →
      findJob (fail ⟨[⟨1, "b", JobType.run, JobStatus.running, 0, 0, "", ""⟩], 2⟩
        1 "boom" retry 5) i' =
      findJob ⟨[⟨1, "b", JobType.run, JobStatus.running, 0, 0, "", ""⟩], 2⟩ i') ∧
    (∀ ts, ((dequeueSeq (fail
        ⟨[⟨1, "b", JobType.run, JobStatus.running, 0, 0, "", ""⟩], 2⟩
        1 "boom" false 5) ts).1.countP (claimedBy 1)) = 0) :=
  fail_contract ⟨[⟨1, "b", JobType.run, JobStatus.running, 0, 0, "", ""⟩], 2⟩ 1
    ⟨1, "b", JobType.run, JobStatus.running, 0, 0, "", ""⟩ "boom" 5
    (by decide) rfl

/-- Witness for C5: an empty queue, tenant `"b"`, interval 4. -/
theorem ensureScheduled_idempotent_witness :
    (∃ nj : Job,
      (ensureScheduled ⟨⟨[], 0⟩, ⟨[], []⟩⟩ "b" 4 0).queue.jobs =
        (⟨⟨[], 0⟩, ⟨[], []⟩⟩ : SchedState).queue.jobs ++ [nj] ∧
      nj.brandID = "b" ∧ nj.type = JobType.run ∧ nj.status = JobStatus.pending) ∧
    (ensureScheduled ⟨⟨[], 0⟩, ⟨[], []⟩⟩ "b" 4 0).queue.jobs.length =
      (⟨⟨[], 0⟩, ⟨[], []⟩⟩ : SchedState).queue.jobs.length + 1 ∧
    hasPendingJob (ensureScheduled ⟨⟨[], 0⟩, ⟨[], []⟩⟩ "b" 4 0).queue "b" = true ∧
    ensureScheduled (ensureScheduled ⟨⟨[], 0⟩, ⟨[], []⟩⟩ "b" 4 0) "b" 4 1 =
      ensureScheduled ⟨⟨[], 0⟩, ⟨[], []⟩⟩ "b" 4 0 ∧
    (∀ (q : QueueState) (b' : String), hasPendingJob q b' = true ↔
      ∃ j ∈ q.jobs, j.brandID = b' ∧
        (j.status = JobStatus.pending ∨ j.status = JobStatus.running)) :=
  ensureScheduled_idempotent ⟨⟨[], 0⟩, ⟨[], []⟩⟩ "b" 4 0 1 rfl

/-- Witness for C6: one Approved post `"sp1"` due at time 0. -/
theorem publish_dedup_witness :
    statusOf (checkScheduledPosts
        ⟨⟨[], 0⟩, ⟨[], [⟨"sp1", "b", PostStatus.approved, 0⟩]⟩⟩ 0).store "sp1" =
      some PostStatus.scheduled ∧
    publishCount (checkScheduledPosts
        ⟨⟨[], 0⟩, ⟨[], [⟨"sp1", "b", PostStatus.approved, 0⟩]⟩⟩ 0).queue "sp1" =
      publishCount (⟨[], 0⟩ : QueueState) "sp1" + 1 ∧
    (∀ (ts : List Int) (now' : Int), "sp1" ∉
      ((getPendingScheduledPosts (applyPasses (checkScheduledPosts
        ⟨⟨[], 0⟩, ⟨[], [⟨"sp1", "b", PostStatus.approved, 0⟩]⟩⟩ 0) ts).store
        now').map ScheduledPost.id)) :=
  publish_dedup ⟨⟨[], 0⟩, ⟨[], [⟨"sp1", "b", PostStatus.approved, 0⟩]⟩⟩
    ⟨"sp1", "b", PostStatus.approved, 0⟩ 0 (by decide)
    (List.mem_singleton.mpr rfl) rfl (by decide)

/-- Witness for C7: job with id 1 claimed at time 0, failed at time 10. -/
theorem backoff_monotone_witness :
    ∃ j', findJob (fail ⟨[⟨1, "b", JobType.run, JobStatus.running, 0, 0, "", ""⟩], 2⟩
        1 "m" true 10) 1 = some j' ∧
      j'.nextRunAt = 10 + 300 ∧
      (⟨1, "b", JobType.run, JobStatus.running, 0, 0, "", ""⟩ : Job).nextRunAt <
        j'.nextRunAt ∧
      10 < j'.nextRunAt :=
  backoff_monotone ⟨[⟨1, "b", JobType.run, JobStatus.pending, 0, 0, "", ""⟩], 2⟩
    0 10 ⟨1, "b", JobType.run, JobStatus.running, 0, 0, "", ""⟩
    ⟨[⟨1, "b", JobType.run, JobStatus.running, 0, 0, "", ""⟩], 2⟩ "m"
    (by decide) rfl (by decide)

/-- Witness for C8: tenant `"T2"` whose only post is 5 hours old, at
interval 4 — the overdue clamp case of the spec's concrete scenario. -/
theorem ensureScheduled_delay_witness :
    (((⟨[⟨"p1", "T2", 82000⟩], []⟩ : StoreState).posts.filter
        fun x => decide (x.brandID = "T2")) = [] →
      computeDelay ⟨[⟨"p1", "T2", 82000⟩], []⟩ "T2" 4 100000 = 60) ∧
    (∀ p ps, getHistory ⟨[⟨"p1", "T2", 82000⟩], []⟩ "T2" = p :: ps →
      (∀ q ∈ (⟨[⟨"p1", "T2", 82000⟩], []⟩ : StoreState).posts.filter
          fun x => decide (x.brandID = "T2"),
        q.createdAt ≤ p.createdAt) ∧
      computeDelay ⟨[⟨"p1", "T2", 82000⟩], []⟩ "T2" 4 100000 =
        (if p.createdAt + (if (4 : Int) ≤ 0 then 4 else 4) * 3600 - 100000 < 0
         then 10
         else p.createdAt + (if (4 : Int) ≤ 0 then 4 else 4) * 3600 - 100000)) ∧
    (∃ nj : Job,
      (ensureScheduled ⟨⟨[], 0⟩, ⟨[⟨"p1", "T2", 82000⟩], []⟩⟩ "T2" 4
        100000).queue.jobs = (⟨[], 0⟩ : QueueState).jobs ++ [nj] ∧
      nj.type = JobType.run ∧ nj.brandID = "T2" ∧ nj.status = JobStatus.pending ∧
      nj.nextRunAt = 100000 + computeDelay ⟨[⟨"p1", "T2", 82000⟩], []⟩ "T2" 4 100000) :=
  ensureScheduled_delay ⟨⟨[], 0⟩, ⟨[⟨"p1", "T2", 82000⟩], []⟩⟩ "T2" 4 100000 rfl

/-- Witness for C9: agent construction fails for the claimed job with
id 1 whose retries counter is 0. -/
theorem construction_failure_permanent_witness :
    (processJob ⟨[⟨1, "b", JobType.run, JobStatus.running, 0, 0, "", ""⟩], 2⟩
      ⟨1, "b", JobType.run, JobStatus.running, 0, 0, "", ""⟩
      (some "unknown tenant") none 7).2 = false ∧
    findJob (processJob ⟨[⟨1, "b", JobType.run, JobStatus.running, 0, 0, "", ""⟩], 2⟩
      ⟨1, "b", JobType.run, JobStatus.running, 0, 0, "", ""⟩
      (some "unknown tenant") none 7).1 1 =
      some ⟨1, "b", JobType.run, JobStatus.failed, 0, 0, "", "unknown tenant"⟩ ∧
    (∀ i', i' ≠ 1 →
      findJob (processJob ⟨[⟨1, "b", JobType.run, JobStatus.running, 0, 0, "", ""⟩], 2⟩
        ⟨1, "b", JobType.run, JobStatus.running, 0, 0, "", ""⟩
        (some "unknown tenant") none 7).1 i' =
      findJob ⟨[⟨1, "b", JobType.run, JobStatus.running, 0, 0, "", ""⟩], 2⟩ i') ∧
    (∀ ts, ((dequeueSeq (processJob
        ⟨[⟨1, "b", JobType.run, JobStatus.running, 0, 0, "", ""⟩], 2⟩
        ⟨1, "b", JobType.run, JobStatus.running, 0, 0, "", ""⟩
        (some "unknown tenant") none 7).1 ts).1.countP (claimedBy 1)) = 0) :=
  construction_failure_permanent
    ⟨[⟨1, "b", JobType.run, JobStatus.running, 0, 0, "", ""⟩], 2⟩
    ⟨1, "b", JobType.run, JobStatus.running, 0, 0, "", ""⟩
    "unknown tenant" none 7
    ⟨1, "b", JobType.run, JobStatus.running, 0, 0, "", ""⟩ (by decide) rfl

/-- Witness for C10: one Approved post `"sp1"` due at time 0, every
`Enqueue` call failing. -/
theorem checkScheduledPosts_ignores_enqueue_result_witness :
    (∀ enqOk : String → Bool,
      statusOf (checkScheduledPostsWith enqOk
        ⟨⟨[], 0⟩, ⟨[], [⟨"sp1", "b", PostStatus.approved, 0⟩]⟩⟩ 0).store "sp1" =
        some PostStatus.scheduled) ∧
    (checkScheduledPostsWith (fun _ => false)
      ⟨⟨[], 0⟩, ⟨[], [⟨"sp1", "b", PostStatus.approved, 0⟩]⟩⟩ 0).queue =
      (⟨[], 0⟩ : QueueState) :=
  checkScheduledPosts_ignores_enqueue_result
    ⟨⟨[], 0⟩, ⟨[], [⟨"sp1", "b", PostStatus.approved, 0⟩]⟩⟩
    ⟨"sp1", "b", PostStatus.approved, 0⟩ 0
    (List.mem_singleton.mpr rfl) rfl (by decide)

end ContentQueue
